import Mathlib

/-!
Verification of the aissamchecker page-watch program: a shallow embedding of
its text normalizer, page matcher, command interpreter, per-chat watch-task
table, and scheduler sweep, with theorems checking the specification's claims.

Conventions.  Python's `None`/`True`/`False` tri-state per URL is modelled as
`Option Bool` (`none` = unknown, `some true` = present, `some false` = absent).
A Python dict is modelled as an association list with Python's insertion
semantics (updating an existing key keeps its position, a new key is appended).
A fetch of a URL is modelled as `String → Option Bool`: `none` means the
request raised a transport/HTTP/timeout error, `some b` means
`page_contains_text` returned `b`.  Unicode data (combining classes,
decompositions, lowercase mappings) is modelled for the fragment of Unicode
the program's inputs exercise: ASCII, Latin-1, the Arabic block used by
`_normalize_arabic`, and the combining marks reachable from them; characters
outside the fragment are inert (class 0, no decomposition, identity lowercase).
-/

namespace Aissam

/-- Canonical combining class (Unicode `ccc`) for the modelled fragment:
the Latin combining range U+0300–U+0314 (class 230), the Arabic harakat and
hamza marks, and 0 elsewhere.  Mirrors what `unicodedata.combining` reports. -/
def ccc (c : Char) : Nat :=
  if 0x300 ≤ c.toNat ∧ c.toNat ≤ 0x314 then 230
  else if c.toNat = 0x64B then 27
  else if c.toNat = 0x64C then 28
  else if c.toNat = 0x64D then 29
  else if c.toNat = 0x64E then 30
  else if c.toNat = 0x64F then 31
  else if c.toNat = 0x650 then 32
  else if c.toNat = 0x651 then 33
  else if c.toNat = 0x652 then 34
  else if c.toNat = 0x670 then 35
  else if 0x610 ≤ c.toNat ∧ c.toNat ≤ 0x61A then 230
  else if c.toNat = 0x653 ∨ c.toNat = 0x654 then 230
  else if c.toNat = 0x655 then 220
  else 0

/-- `unicodedata.combining(ch)` is nonzero, i.e. the char is a combining mark. -/
def combining (c : Char) : Bool := decide (ccc c ≠ 0)

/-- Canonical decomposition table for the modelled fragment:
İ (U+0130) → I + combining dot above, ö/Ö → o/O + combining diaeresis.
Characters without a modelled decomposition are their own decomposition. -/
def decompChar (c : Char) : List Char :=
  if c.toNat = 0x130 then [Char.ofNat 0x49, Char.ofNat 0x307]
  else if c.toNat = 0xF6 then [Char.ofNat 0x6F, Char.ofNat 0x308]
  else if c.toNat = 0xD6 then [Char.ofNat 0x4F, Char.ofNat 0x308]
  else [c]

/-- Canonical composition, the inverse of `decompChar` on its table. -/
def composePair (a b : Char) : Option Char :=
  if a.toNat = 0x49 ∧ b.toNat = 0x307 then some (Char.ofNat 0x130)
  else if a.toNat = 0x6F ∧ b.toNat = 0x308 then some (Char.ofNat 0xF6)
  else if a.toNat = 0x4F ∧ b.toNat = 0x308 then some (Char.ofNat 0xD6)
  else none

/-- Insert a combining mark into an already ccc-sorted run, after any mark of
equal or smaller class (stable insertion, as canonical ordering requires). -/
def insertMark (c : Char) : List Char → List Char
  | [] => [c]
  | d :: ds => if ccc d ≤ ccc c then d :: insertMark c ds else c :: d :: ds

/-- Stable sort of a run of combining marks by canonical combining class. -/
def sortMarks (l : List Char) : List Char :=
  l.foldl (fun acc c => insertMark c acc) []

/-- Canonical ordering pass: sort each maximal run of combining marks by ccc,
leaving starters (class 0) in place.  First argument accumulates the current
run of marks. -/
def canonicalOrderGo : List Char → List Char → List Char
  | marks, [] => sortMarks marks
  | marks, c :: rest =>
    if ccc c = 0 then sortMarks marks ++ c :: canonicalOrderGo [] rest
    else canonicalOrderGo (marks ++ [c]) rest

/-- Canonical ordering of a decomposed character sequence. -/
def canonicalOrder (l : List Char) : List Char := canonicalOrderGo [] l

/-- Composition pass: pair the pending starter with the next character when
the table composes them, otherwise emit it and continue. -/
def composeAux (a : Char) : List Char → List Char
  | [] => [a]
  | b :: rest =>
    match composePair a b with
    | some c => composeAux c rest
    | none => a :: composeAux b rest

/-- Composition pass over a whole sequence. -/
def compose : List Char → List Char
  | [] => []
  | a :: rest => composeAux a rest

/-- `unicodedata.normalize("NFKC", ·)` on the modelled fragment:
decompose, reorder combining marks canonically, recompose. -/
def nfkc (l : List Char) : List Char := compose (canonicalOrder (l.flatMap decompChar))

/-- Python `str.split()` whitespace (characters with `str.isspace()` true). -/
def pySpace (c : Char) : Bool :=
  decide ((9 ≤ c.toNat ∧ c.toNat ≤ 13) ∨ (0x1C ≤ c.toNat ∧ c.toNat ≤ 0x1F) ∨
    c.toNat = 0x20 ∨ c.toNat = 0x85 ∨ c.toNat = 0xA0 ∨ c.toNat = 0x1680 ∨
    (0x2000 ≤ c.toNat ∧ c.toNat ≤ 0x200A) ∨ c.toNat = 0x2028 ∨ c.toNat = 0x2029 ∨
    c.toNat = 0x202F ∨ c.toNat = 0x205F ∨ c.toNat = 0x3000)

/-- Worker for Python `str.split()`: accumulate the current word (reversed). -/
def pySplitGo : List Char → List Char → List (List Char)
  | acc, [] => if acc.isEmpty then [] else [acc.reverse]
  | acc, c :: rest =>
    if pySpace c then
      if acc.isEmpty then pySplitGo [] rest else acc.reverse :: pySplitGo [] rest
    else pySplitGo (c :: acc) rest

/-- Python `text.split()`: maximal runs of non-whitespace characters. -/
def pySplit (l : List Char) : List (List Char) := pySplitGo [] l

/-- Python `" ".join(words)`: the words separated by single spaces. -/
def joinSpace : List (List Char) → List Char
  | [] => []
  | [w] => w
  | w :: ws => w ++ Char.ofNat 0x20 :: joinSpace ws

/-- Python `" ".join(text.split())`: collapse whitespace runs, trim ends. -/
def collapseWs (l : List Char) : List Char := joinSpace (pySplit l)

/-- The `replacements` table of `_normalize_arabic`, as a character map:
أ/إ/آ → ا, ى/ئ → ي, ؤ → و, ة → ه, tatweel removed.  The Python code applies
eight sequential `str.replace` calls with single-character sources; since no
replacement target is itself a source, that equals this simultaneous map. -/
def replChar (c : Char) : Option Char :=
  if c.toNat = 0x623 ∨ c.toNat = 0x625 ∨ c.toNat = 0x622 then some (Char.ofNat 0x627)
  else if c.toNat = 0x649 ∨ c.toNat = 0x626 then some (Char.ofNat 0x64A)
  else if c.toNat = 0x624 then some (Char.ofNat 0x648)
  else if c.toNat = 0x629 then some (Char.ofNat 0x647)
  else if c.toNat = 0x640 then none
  else some c

/-- Python `str.lower()` on the modelled fragment: ASCII A–Z, the Latin-1
uppercase range À–Þ (excluding ×), and the one multi-character special case
İ (U+0130) → i + combining dot above.  Identity elsewhere. -/
def lowerChar (c : Char) : List Char :=
  if c.toNat = 0x130 then [Char.ofNat 0x69, Char.ofNat 0x307]
  else if 0x41 ≤ c.toNat ∧ c.toNat ≤ 0x5A then [Char.ofNat (c.toNat + 0x20)]
  else if 0xC0 ≤ c.toNat ∧ c.toNat ≤ 0xDE ∧ c.toNat ≠ 0xD7 then [Char.ofNat (c.toNat + 0x20)]
  else [c]

/-- Python `str.lower()` lifted to strings. -/
def strLower (s : String) : String := String.mk (s.data.flatMap lowerChar)

/-- Step 2 of `_normalize_arabic`: drop combining marks. -/
def stripCombining (l : List Char) : List Char := l.filter (fun c => !combining c)

/-- Step 3 of `_normalize_arabic`: apply the replacement table. -/
def applyRepl (l : List Char) : List Char := l.filterMap replChar

/-- `_normalize_arabic` on character lists: NFKC, strip combining marks,
apply the Arabic replacement table, collapse whitespace, lowercase. -/
def normalize_arabic_chars (l : List Char) : List Char :=
  (collapseWs (applyRepl (stripCombining (nfkc l)))).flatMap lowerChar

/-- `_normalize_arabic(text)` from the source. -/
def normalize_arabic (s : String) : String := String.mk (normalize_arabic_chars s.data)

/-- `page_contains_text(url, needle)` with the network fetch abstracted away:
applied to the decoded page body, it returns whether
`_normalize_arabic(needle)` occurs inside `_normalize_arabic(page_text)`
(Python's `in` operator on strings). -/
def listStarts : List Char → List Char → Bool
  | [], _ => true
  | _ :: _, [] => false
  | a :: as, b :: bs => a == b && listStarts as bs

/-- Python's `sub in s` for strings: `sub` occurs contiguously inside `s`. -/
def occursIn : List Char → List Char → Bool
  | sub, [] => sub.isEmpty
  | sub, c :: rest => listStarts sub (c :: rest) || occursIn sub rest

def page_contains_text (page_text needle : String) : Bool :=
  occursIn (normalize_arabic needle).data (normalize_arabic page_text).data

/-- Python `str.split()` lifted to strings, yielding strings. -/
def pySplitStr (s : String) : List String :=
  (pySplit s.data).map (fun w => String.mk w)

/-- `parse_command(text)` from the source: strip/split on whitespace, first
token lowercased is the command, the rest are its arguments; empty input
yields `("", [])`. -/
def parse_command (text : String) : String × List String :=
  match pySplitStr text with
  | [] => ("", [])
  | c :: rest => (strLower c, rest)

/-- One decimal digit. -/
def isDigit (c : Char) : Bool := decide (0x30 ≤ c.toNat ∧ c.toNat ≤ 0x39)

/-- The value of one decimal digit character (0 for non-digits). -/
def digitVal (c : Char) : Nat :=
  if c = '1' then 1 else if c = '2' then 2 else if c = '3' then 3
  else if c = '4' then 4 else if c = '5' then 5 else if c = '6' then 6
  else if c = '7' then 7 else if c = '8' then 8 else if c = '9' then 9 else 0

/-- Split a leading run of decimal digits off a character list. -/
def takeDigits : List Char → List Nat × List Char
  | [] => ([], [])
  | c :: rest =>
    if 0x30 ≤ c.toNat ∧ c.toNat ≤ 0x39 then
      (digitVal c :: (takeDigits rest).1, (takeDigits rest).2)
    else ([], c :: rest)

/-- Value of a digit run read left to right. -/
def digitsVal (ds : List Nat) : Nat := ds.foldl (fun a d => a * 10 + d) 0

/-- Model of Python `float(token)` on the tokens the bot receives, as an exact
rational: `[+|-] (digits [. digits] | . digits) [(e|E) [+|-] digits]`, `none`
when unparseable.  (Python's `float` additionally accepts `inf`/`nan`,
underscore separators and non-ASCII digits; those are outside this model,
which is exact on ordinary decimal tokens such as `"10"` or `"2.5"`.) -/
def pyFloat? (s : String) : Option ℚ :=
  let l := s.data
  let signed : Bool × List Char :=
    match l with
    | c :: rest =>
      if c.toNat = 0x2D then (true, rest)
      else if c.toNat = 0x2B then (false, rest) else (false, l)
    | [] => (false, [])
  let ipr := takeDigits signed.2
  let fpr : List Nat × List Char :=
    match ipr.2 with
    | c :: rest => if c.toNat = 0x2E then takeDigits rest else ([], ipr.2)
    | [] => ([], [])
  if ipr.1 = [] ∧ fpr.1 = [] then none
  else
    let mant : ℚ := (digitsVal ipr.1 : ℚ) + (digitsVal fpr.1 : ℚ) / (10 : ℚ) ^ fpr.1.length
    let withExp : Option ℚ :=
      match fpr.2 with
      | [] => some mant
      | c :: rest =>
        if c.toNat = 0x65 ∨ c.toNat = 0x45 then
          let esigned : Bool × List Char :=
            match rest with
            | d :: rr =>
              if d.toNat = 0x2D then (true, rr)
              else if d.toNat = 0x2B then (false, rr) else (false, rest)
            | [] => (false, [])
          let edr := takeDigits esigned.2
          if edr.1 = [] ∨ edr.2 ≠ [] then none
          else if esigned.1 then some (mant / (10 : ℚ) ^ digitsVal edr.1)
          else some (mant * (10 : ℚ) ^ digitsVal edr.1)
        else none
    withExp.map (fun q => if signed.1 then -q else q)

/-- A token the `/watch` handler treats as a URL: it starts with a scheme. -/
def is_url_token (s : String) : Bool :=
  listStarts "http://".data s.data || listStarts "https://".data s.data

/-- One argument of the `/watch` scan: a URL-scheme token is appended to
`urls`; any other token that parses as a float `≥ 1.0` overwrites the
interval; the rest are ignored. -/
def watchScanStep (acc : List String × ℚ) (arg : String) : List String × ℚ :=
  if is_url_token arg then (acc.1 ++ [arg], acc.2)
  else
    match pyFloat? arg with
    | some q => if 1 ≤ q then (acc.1, q) else acc
    | none => acc

/-- The `/watch` argument scan from the source: collect URL-scheme tokens in
order into `urls`; every other token that parses as a float `≥ 1.0`
overwrites `interval` (so the last such token wins); the rest are ignored. -/
def interpret_watch (cmd_args : List String) (default_interval : ℚ) :
    List String × ℚ :=
  cmd_args.foldl watchScanStep ([], default_interval)

/-- The interval value a single token contributes: its float value when that
is at least 1, nothing otherwise. -/
def intervalTok? (arg : String) : Option ℚ :=
  match pyFloat? arg with
  | some q => if 1 ≤ q then some q else none
  | none => none

/-- The `/watch` command path: on a (case-insensitive) watch verb with at
least one argument, scan the arguments; if no URL token was found the intent
is invalid (`none`, an error reply, no task); otherwise the collected URLs
and interval form the new task's parameters. -/
def watch_intent (text : String) (default_interval : ℚ) :
    Option (List String × ℚ) :=
  let p := parse_command text
  if (p.1 = "/watch" ∨ p.1 = "watch") ∧ 1 ≤ p.2.length then
    let r := interpret_watch p.2 default_interval
    if r.1 = [] then none else some r
  else none

/-- Python-dict insertion on an association list: an existing key is updated
in place (keeping its position), a new key is appended. -/
def dictInsert {α : Type} : List (String × α) → String → α → List (String × α)
  | [], k, v => [(k, v)]
  | (k', v') :: d, k, v =>
    if k' = k then (k, v) :: d else (k', v') :: dictInsert d k v

/-- Python `d.get(k)`-style lookup on an association list. -/
def dictGet? {α : Type} : List (String × α) → String → Option α
  | [], _ => none
  | (k', v') :: d, k => if k' = k then some v' else dictGet? d k

/-- The keys of an association-list dict, in insertion order. -/
def dictKeys {α : Type} (d : List (String × α)) : List String := d.map (fun e => e.1)

/-- `{url: None for url in urls}` from the task-creation code: every listed
URL gets state unknown (`none`); duplicate URLs collapse onto one entry. -/
def mkStates (urls : List String) : List (String × Option Bool) :=
  urls.foldl (fun d u => dictInsert d u none) []

/-- One per-chat watch task, as stored in the `tasks` table. -/
structure WatchTask where
  urls : List String
  interval : ℚ
  states : List (String × Option Bool)
  next_at : ℚ
deriving DecidableEq

/-- The task dict stored by the `/watch` handler:
`{"urls": urls, "interval": interval, "states": {url: None ...}, "next_at": 0.0}`. -/
def mkWatchTask (urls : List String) (interval : ℚ) : WatchTask :=
  { urls := urls, interval := interval, states := mkStates urls, next_at := 0 }

/-- `tasks[chat_id] = {...}`: the `/watch` handler replaces whatever task the
chat had with a fresh one; other chats' tasks are untouched. -/
def applyWatch (tasks : String → Option WatchTask) (chat : String)
    (urls : List String) (interval : ℚ) : String → Option WatchTask :=
  fun id => if id = chat then some (mkWatchTask urls interval) else tasks id

/-- The notification condition of `handle_result`:
`should_notify = exists and (prev_state is not True)`. -/
def should_notify (ex : Bool) (prev_state : Option Bool) : Bool :=
  ex && !(prev_state == some true)

/-- `handle_result(url, exists, prev_state, notify_token, notify_chat)` from
the source, with printing omitted: the first component is its return value
(the new stored state, `exists`); the second is whether the Telegram
notification was sent (`should_notify and notify_token and notify_chat`,
string truthiness modelled as non-emptiness). -/
def handle_result (ex : Bool) (prev_state : Option Bool)
    (notify_token notify_chat : String) : Bool × Bool :=
  (ex, should_notify ex prev_state && !(notify_token == "") && !(notify_chat == ""))

/-- One URL of a sweep, from the bot loop:
`exists = page_contains_text(url, ...)` (an exception, `fetch url = none`, is
caught and treated as `exists = False`), then
`task["states"][url] = handle_result(url, exists, task["states"].get(url), token, chat)`.
The accumulator carries the states dict and the URLs notified so far. -/
def sweepStep (fetch : String → Option Bool) (token chat : String)
    (acc : List (String × Option Bool) × List String) (url : String) :
    List (String × Option Bool) × List String :=
  let prev : Option Bool := (dictGet? acc.1 url).getD none
  let r := handle_result ((fetch url).getD false) prev token chat
  (dictInsert acc.1 url (some r.1), if r.2 then acc.2 ++ [url] else acc.2)

/-- `for url in task.get("urls", []): ...` — one full sweep over a task's URL
list, in list order, starting from its current states. -/
def sweepTask (fetch : String → Option Bool) (token chat : String)
    (states : List (String × Option Bool)) (urls : List String) :
    List (String × Option Bool) × List String :=
  urls.foldl (sweepStep fetch token chat) (states, [])

/-- One scheduler tick on one task, from the bot loop: if
`now >= task["next_at"]`, sweep all its URLs and then set
`task["next_at"] = now + task["interval"]` (anchored to the tick's `now`);
otherwise leave the task untouched.  Returns the updated task and the list
of URLs for which a notification fired. -/
def tick_task (now : ℚ) (fetch : String → Option Bool) (token chat : String)
    (task : WatchTask) : WatchTask × List String :=
  if task.next_at ≤ now then
    let r := sweepTask fetch token chat task.states task.urls
    ({ task with states := r.1, next_at := now + task.interval }, r.2)
  else (task, [])

/-- The hard-coded fallback of the `--tg-token` argument:
`os.getenv("TELEGRAM_BOT_TOKEN", "1687…")` — the environment variable when
set, otherwise the token constant embedded in the source. -/
def default_tg_token (env : Option String) : String :=
  env.getD "1687980280:AAH9vN-yD619thih9y7MthpB0YLOGs9HMq8"

/-- The resolved bot credential: the `--tg-token` flag when given, otherwise
the argparse default `default_tg_token env`. -/
def resolve_token (flag env : Option String) : String :=
  flag.getD (default_tg_token env)

/-- The bot-mode startup check: `if not token: raise SystemExit(...)` —
an error diagnostic exactly when the resolved token is the empty string. -/
def bot_token_check (token : String) : Except String Unit :=
  if token = "" then
    Except.error "Telegram token is required in bot mode (use --tg-token or TELEGRAM_BOT_TOKEN)"
  else Except.ok ()

/-- Python string truthiness of an optional encoding: `None` and `""` are
falsy. -/
def pyTruthy : Option String → Bool
  | none => false
  | some s => !(s == "")

/-- The encoding-selection chain of `page_contains_text`:
`if not resp.encoding: resp.encoding = resp.apparent_encoding` followed by
`if not resp.encoding or resp.encoding.lower() == 'iso-8859-1':
resp.encoding = 'utf-8'`.  `declared` is the server-declared encoding
(`resp.encoding` as set from the headers), `apparent` the content-detection
result (`resp.apparent_encoding`); the value returned is the encoding the
body is finally decoded with. -/
def resolve_encoding (declared apparent : Option String) : String :=
  let e1 := if pyTruthy declared then declared else apparent
  if !(pyTruthy e1) then "utf-8"
  else if strLower (e1.getD "") = "iso-8859-1" then "utf-8"
  else e1.getD ""

/-- The decoding chain as the spec words it (for comparison with
`resolve_encoding`): prefer the server-declared encoding; if it is absent or
is the known-bad default ISO-8859-1, use content-based detection; only if
that also fails fall back to UTF-8. -/
def resolve_encoding_spec (declared apparent : Option String) : String :=
  if pyTruthy declared ∧ strLower (declared.getD "") ≠ "iso-8859-1" then
    declared.getD ""
  else if pyTruthy apparent then apparent.getD ""
  else "utf-8"

/-- A final character of a normalized string: inert under every stage of the
pipeline — its own NFKC decomposition, not a combining mark, fixed by the
replacement table, fixed by lowercasing, and not whitespace. -/
def endChar (e : Char) : Bool :=
  decompChar e == [e] && !combining e && replChar e == some e &&
    lowerChar e == [e] && !pySpace e

/-- A character that may appear after the replacement stage: whitespace (it
is consumed by the collapse), or a character all of whose lowercase output
characters are final. -/
def lowGood (d : Char) : Bool := pySpace d || (lowerChar d).all endChar

/-- The replacement image of a character is well-behaved. -/
def replOk (c : Char) : Bool :=
  match replChar c with
  | none => true
  | some d => lowGood d

/-- Characters for which the amended idempotence claim is proved: either an
inert combining mark (excluding U+0307/U+0308, the marks that can compose
with a preceding base letter), or a non-combining character that is its own
NFKC decomposition and whose replacement image lowercases to final
characters (or is whitespace).  This covers all of ASCII and the Arabic
repertoire the program targets, harakat included; İ — whose lowercase
introduces a combining mark — falls outside it. -/
def okChar (c : Char) : Bool :=
  if combining c then
    decompChar c == [c] && c.toNat != 0x307 && c.toNat != 0x308
  else decompChar c == [c] && replOk c

/-- Sequential checks of one URL, as in repeated due sweeps: starting from a
stored state, feed a list of per-check boolean results through
`handle_result`, returning the stored-state trace (initial state first) and
the per-check notification flags. -/
def runChecks (token chat : String) : Option Bool → List Bool →
    List (Option Bool) × List Bool
  | st, [] => ([st], [])
  | st, r :: rest =>
    let h := handle_result r st token chat
    let t := runChecks token chat (some h.1) rest
    (st :: t.1, h.2 :: t.2)

theorem dictKeys_nil {α : Type} : dictKeys ([] : List (String × α)) = [] := rfl

theorem dictKeys_cons {α : Type} (e : String × α) (d : List (String × α)) :
    dictKeys (e :: d) = e.1 :: dictKeys d := rfl

theorem dictGet_insert_self {α : Type} (d : List (String × α)) (k : String) (v : α) :
    dictGet? (dictInsert d k v) k = some v := by
  induction d with
  | nil => simp [dictInsert, dictGet?]
  | cons e d ih =>
    obtain ⟨k', v'⟩ := e
    by_cases h : k' = k
    · simp [dictInsert, dictGet?, h]
    · simp [dictInsert, dictGet?, h, ih]

theorem dictGet_insert_ne {α : Type} (d : List (String × α)) {k k' : String} (v : α)
    (h : k' ≠ k) : dictGet? (dictInsert d k v) k' = dictGet? d k' := by
  induction d with
  | nil => simp [dictInsert, dictGet?, h, Ne.symm h]
  | cons e d ih =>
    obtain ⟨k₀, v₀⟩ := e
    by_cases h0 : k₀ = k
    · subst h0; simp [dictInsert, dictGet?, Ne.symm h]
    · simp [dictInsert, dictGet?, h0, ih]

theorem mem_dictKeys_insert {α : Type} (d : List (String × α)) (k k' : String) (v : α) :
    k' ∈ dictKeys (dictInsert d k v) ↔ k' = k ∨ k' ∈ dictKeys d := by
  induction d with
  | nil => simp [dictInsert, dictKeys]
  | cons e d ih =>
    obtain ⟨k₀, v₀⟩ := e
    by_cases h0 : k₀ = k
    · subst h0; simp [dictInsert, dictKeys]
    · simp [dictInsert, dictKeys, h0] at ih ⊢
      constructor
      · rintro (h | h)
        · tauto
        · rcases ih.mp h with h | h <;> tauto
      · rintro (h | h | h)
        · exact Or.inr (ih.mpr (Or.inl h))
        · tauto
        · exact Or.inr (ih.mpr (Or.inr h))

theorem nodup_dictKeys_insert {α : Type} (d : List (String × α)) (k : String) (v : α)
    (h : (dictKeys d).Nodup) : (dictKeys (dictInsert d k v)).Nodup := by
  induction d with
  | nil => simp [dictInsert, dictKeys]
  | cons e d ih =>
    obtain ⟨k₀, v₀⟩ := e
    rw [dictKeys_cons, List.nodup_cons] at h
    by_cases h0 : k₀ = k
    · subst h0
      have hins : dictInsert ((k₀, v₀) :: d) k₀ v = (k₀, v) :: d := by
        simp [dictInsert]
      rw [hins, dictKeys_cons, List.nodup_cons]
      exact ⟨h.1, h.2⟩
    · have hins : dictInsert ((k₀, v₀) :: d) k v = (k₀, v₀) :: dictInsert d k v := by
        simp [dictInsert, h0]
      rw [hins, dictKeys_cons, List.nodup_cons]
      refine ⟨?_, ih h.2⟩
      intro hmem
      rcases (mem_dictKeys_insert d k k₀ v).mp hmem with h1 | h1
      · exact h0 h1
      · exact h.1 h1

theorem dictGet_of_mem_keys {α : Type} (d : List (String × α)) (k : String)
    (h : k ∈ dictKeys d) : ∃ v, dictGet? d k = some v ∧ (k, v) ∈ d := by
  induction d with
  | nil => simp [dictKeys] at h
  | cons e d ih =>
    obtain ⟨k₀, v₀⟩ := e
    by_cases h0 : k₀ = k
    · subst h0; exact ⟨v₀, by simp [dictGet?], by simp⟩
    · rw [dictKeys_cons] at h
      rcases List.mem_cons.mp h with h1 | h1
      · exact absurd h1.symm h0
      · obtain ⟨v, hv, hmem⟩ := ih h1
        exact ⟨v, by simp [dictGet?, h0, hv], by simp [hmem]⟩

theorem mkStatesFold_mem (urls : List String) :
    ∀ (d : List (String × Option Bool)) (k : String),
      k ∈ dictKeys (urls.foldl (fun d u => dictInsert d u none) d) ↔
        k ∈ dictKeys d ∨ k ∈ urls := by
  induction urls with
  | nil => simp
  | cons u urls ih =>
    intro d k
    simp only [List.foldl_cons, ih, mem_dictKeys_insert, List.mem_cons]
    tauto

theorem mkStatesFold_nodup (urls : List String) :
    ∀ d : List (String × Option Bool), (dictKeys d).Nodup →
      (dictKeys (urls.foldl (fun d u => dictInsert d u none) d)).Nodup := by
  induction urls with
  | nil => simpa using fun d h => h
  | cons u urls ih =>
    intro d h
    exact ih _ (nodup_dictKeys_insert d u none h)

theorem mkStatesFold_val (urls : List String) :
    ∀ d : List (String × Option Bool), (∀ p ∈ d, p.2 = none) →
      ∀ p ∈ urls.foldl (fun d u => dictInsert d u none) d, p.2 = none := by
  induction urls with
  | nil => simpa using fun d h => h
  | cons u urls ih =>
    intro d h
    refine ih _ ?_
    intro p hp
    clear ih
    induction d with
    | nil => simp [dictInsert] at hp; simp [hp]
    | cons e d ihd =>
      obtain ⟨k₀, v₀⟩ := e
      by_cases h0 : k₀ = u
      · subst h0
        simp [dictInsert] at hp
        rcases hp with hp | hp
        · simp [hp]
        · exact h _ (by simp [hp])
      · simp [dictInsert, h0] at hp
        rcases hp with hp | hp
        · exact h _ (by simp [hp])
        · exact ihd (fun q hq => h q (by simp [hq])) hp

theorem mem_mkStates_keys (urls : List String) (k : String) :
    k ∈ dictKeys (mkStates urls) ↔ k ∈ urls := by
  simpa [mkStates, dictKeys] using mkStatesFold_mem urls [] k

theorem mkStates_keys_nodup (urls : List String) : (dictKeys (mkStates urls)).Nodup :=
  mkStatesFold_nodup urls [] (by simp [dictKeys])

theorem mkStates_get (urls : List String) (u : String) (h : u ∈ urls) :
    dictGet? (mkStates urls) u = some none := by
  obtain ⟨v, hv, hmem⟩ :=
    dictGet_of_mem_keys (mkStates urls) u ((mem_mkStates_keys urls u).mpr h)
  have := mkStatesFold_val urls [] (by simp) (u, v) hmem
  simp at this
  rwa [this] at hv

/-- C1: within a watch task (non-empty token and chat id), `handle_result`
sends a notification iff the new result is present and the previous stored
state was not present; feeding the state sequence
[unknown, absent, present, present, absent, present] through sequential
checks fires exactly 2 notifications — after producing the 3rd and the 6th
states of the sequence — and present→present never re-notifies. -/
theorem C1_notify_iff_transition (token chat : String)
    (htok : token ≠ "") (hchat : chat ≠ "") :
    (∀ (ex : Bool) (prev : Option Bool),
      ((handle_result ex prev token chat).2 = true ↔ (ex = true ∧ prev ≠ some true))) ∧
    runChecks token chat none [false, true, true, false, true] =
      ([none, some false, some true, some true, some false, some true],
       [false, true, false, false, true]) ∧
    (runChecks token chat none [false, true, true, false, true]).2.count true = 2 := by
  have h1 : (token == "") = false := by simpa using htok
  have h2 : (chat == "") = false := by simpa using hchat
  have hrun : runChecks token chat none [false, true, true, false, true] =
      ([none, some false, some true, some true, some false, some true],
       [false, true, false, false, true]) := by
    simp [runChecks, handle_result, should_notify, h1, h2]
  refine ⟨?_, hrun, ?_⟩
  · intro ex prev
    cases prev with
    | none => cases ex <;> simp [handle_result, should_notify, h1, h2]
    | some b => cases b <;> cases ex <;> simp [handle_result, should_notify, h1, h2]
  · rw [hrun]; decide

theorem C1_notify_iff_transition_witness :
    ("t" : String) ≠ "" ∧ ("c" : String) ≠ "" ∧
    ((∀ (ex : Bool) (prev : Option Bool),
      ((handle_result ex prev "t" "c").2 = true ↔ (ex = true ∧ prev ≠ some true))) ∧
    runChecks "t" "c" none [false, true, true, false, true] =
      ([none, some false, some true, some true, some false, some true],
       [false, true, false, false, true]) ∧
    (runChecks "t" "c" none [false, true, true, false, true]).2.count true = 2) :=
  ⟨by decide, by decide, C1_notify_iff_transition "t" "c" (by decide) (by decide)⟩

/-- C3: a due task's next due time is set to the tick's `now` plus the
task's interval; the result does not depend on the fetch behaviour (the
time a sweep's fetches take never enters the schedule). -/
theorem C3_anchored_scheduling (now : ℚ) (fetch : String → Option Bool)
    (token chat : String) (task : WatchTask) (hdue : task.next_at ≤ now) :
    (tick_task now fetch token chat task).1.next_at = now + task.interval ∧
    (∀ fetch', (tick_task now fetch' token chat task).1.next_at =
      (tick_task now fetch token chat task).1.next_at) := by
  constructor
  · simp [tick_task, hdue]
  · intro fetch'; simp [tick_task, hdue]

theorem C3_anchored_scheduling_witness :
    (mkWatchTask ["https://a.test"] 5).next_at ≤ 100 ∧
    ((tick_task 100 (fun _ => some true) "t" "c" (mkWatchTask ["https://a.test"] 5)).1.next_at
        = 100 + (mkWatchTask ["https://a.test"] 5).interval ∧
      (∀ fetch', (tick_task 100 fetch' "t" "c" (mkWatchTask ["https://a.test"] 5)).1.next_at =
        (tick_task 100 (fun _ => some true) "t" "c" (mkWatchTask ["https://a.test"] 5)).1.next_at)) ∧
    100 + (mkWatchTask ["https://a.test"] 5).interval = 105 ∧ (105 : ℚ) ≠ 108 :=
  ⟨by norm_num [mkWatchTask],
   C3_anchored_scheduling 100 (fun _ => some true) "t" "c" (mkWatchTask ["https://a.test"] 5)
     (by norm_num [mkWatchTask]),
   by norm_num [mkWatchTask], by norm_num⟩

/-- C7: processing a start-watch command for a chat that already has a task
fully replaces it: the new task is built from the command's URLs and
interval alone, every per-URL state is reset to unknown, and other chats'
tasks are untouched. -/
theorem C7_watch_replaces_task (tasks : String → Option WatchTask) (chat : String)
    (urls : List String) (interval : ℚ) (old : WatchTask)
    (hold : tasks chat = some old) :
    applyWatch tasks chat urls interval chat = some (mkWatchTask urls interval) ∧
    (mkWatchTask urls interval).states = mkStates urls ∧
    (∀ u ∈ urls, dictGet? (mkWatchTask urls interval).states u = some none) ∧
    (∀ id, id ≠ chat → applyWatch tasks chat urls interval id = tasks id) := by
  refine ⟨by simp [applyWatch], rfl, ?_, ?_⟩
  · intro u hu
    simpa [mkWatchTask] using mkStates_get urls u hu
  · intro id hid
    simp [applyWatch, hid]

theorem C7_watch_replaces_task_witness :
    (fun _ : String => some (mkWatchTask ["https://old.test"] 7)) "c" =
      some (mkWatchTask ["https://old.test"] 7) ∧
    (applyWatch (fun _ : String => some (mkWatchTask ["https://old.test"] 7)) "c"
        ["https://a.test"] 5 "c" = some (mkWatchTask ["https://a.test"] 5) ∧
      (mkWatchTask ["https://a.test"] 5).states = mkStates ["https://a.test"] ∧
      (∀ u ∈ ["https://a.test"],
        dictGet? (mkWatchTask ["https://a.test"] 5).states u = some none) ∧
      (∀ id, id ≠ "c" →
        applyWatch (fun _ : String => some (mkWatchTask ["https://old.test"] 7)) "c"
          ["https://a.test"] 5 id =
        (fun _ : String => some (mkWatchTask ["https://old.test"] 7)) id)) :=
  ⟨rfl, C7_watch_replaces_task (fun _ => some (mkWatchTask ["https://old.test"] 7)) "c"
    ["https://a.test"] 5 (mkWatchTask ["https://old.test"] 7) rfl⟩

theorem sweep_written (fetch : String → Option Bool) (token chat : String) :
    ∀ (urls : List String) (acc : List (String × Option Bool) × List String) (v : String),
      (v ∈ urls ∨ dictGet? acc.1 v = some (some ((fetch v).getD false))) →
      dictGet? (urls.foldl (sweepStep fetch token chat) acc).1 v =
        some (some ((fetch v).getD false)) := by
  intro urls
  induction urls with
  | nil =>
    intro acc v h
    rcases h with h | h
    · simp at h
    · simpa using h
  | cons u urls ih =>
    intro acc v h
    rw [List.foldl_cons]
    by_cases huv : v = u
    · subst huv
      refine ih _ v (Or.inr ?_)
      simp [sweepStep, handle_result, dictGet_insert_self]
    · refine ih _ v ?_
      rcases h with h | h
      · rcases List.mem_cons.mp h with h1 | h1
        · exact absurd h1 huv
        · exact Or.inl h1
      · refine Or.inr ?_
        rw [show (sweepStep fetch token chat acc u).1 = dictInsert acc.1 u
          (some (handle_result ((fetch u).getD false) ((dictGet? acc.1 u).getD none) token chat).1) from rfl]
        rwa [dictGet_insert_ne _ _ huv]

theorem sweep_notified_present (fetch : String → Option Bool) (token chat : String) :
    ∀ (urls : List String) (acc : List (String × Option Bool) × List String) (u : String),
      u ∈ (urls.foldl (sweepStep fetch token chat) acc).2 →
      u ∈ acc.2 ∨ (u ∈ urls ∧ (fetch u).getD false = true) := by
  intro urls
  induction urls with
  | nil =>
    intro acc u h
    exact Or.inl (by simpa using h)
  | cons w urls ih =>
    intro acc u h
    rw [List.foldl_cons] at h
    rcases ih _ u h with h1 | h1
    · by_cases hnotif :
        (handle_result ((fetch w).getD false) ((dictGet? acc.1 w).getD none) token chat).2 = true
      · have : (sweepStep fetch token chat acc w).2 = acc.2 ++ [w] := by
          simp [sweepStep, hnotif]
        rw [this] at h1
        rcases List.mem_append.mp h1 with h2 | h2
        · exact Or.inl h2
        · have hw : u = w := by simpa using h2
          subst hw
          have hex : (fetch u).getD false = true := by
            simp [handle_result, should_notify, Bool.and_eq_true] at hnotif
            exact hnotif.1.1.1
          exact Or.inr ⟨List.mem_cons_self _ _, hex⟩
      · have : (sweepStep fetch token chat acc w).2 = acc.2 := by
          simp [sweepStep, hnotif]
        rw [this] at h1
        exact Or.inl h1
    · exact Or.inr ⟨List.mem_cons_of_mem _ h1.1, h1.2⟩

theorem sweep_count_invariant (fetch : String → Option Bool) (token chat : String)
    (u : String) :
    ∀ (urls : List String) (acc : List (String × Option Bool) × List String),
      (acc.2.count u = 0 ∨
        (acc.2.count u = 1 ∧ dictGet? acc.1 u = some (some true) ∧
          (fetch u).getD false = true)) →
      ((urls.foldl (sweepStep fetch token chat) acc).2.count u = 0 ∨
        ((urls.foldl (sweepStep fetch token chat) acc).2.count u = 1 ∧
          dictGet? (urls.foldl (sweepStep fetch token chat) acc).1 u = some (some true) ∧
          (fetch u).getD false = true)) := by
  intro urls
  induction urls with
  | nil => intro acc h; simpa using h
  | cons w urls ih =>
    intro acc h
    rw [List.foldl_cons]
    refine ih _ ?_
    by_cases huw : u = w
    · subst huw
      rcases h with h | h
      · by_cases hnotif :
          (handle_result ((fetch u).getD false) ((dictGet? acc.1 u).getD none) token chat).2 = true
        · refine Or.inr ⟨?_, ?_, ?_⟩
          · simp [sweepStep, hnotif, List.count_append, h]
          · have hex : (fetch u).getD false = true := by
              simp [handle_result, should_notify, Bool.and_eq_true] at hnotif
              exact hnotif.1.1.1
            rw [show (sweepStep fetch token chat acc u).1 = dictInsert acc.1 u
              (some (handle_result ((fetch u).getD false) ((dictGet? acc.1 u).getD none) token chat).1) from rfl]
            simp [handle_result, dictGet_insert_self, hex]
          · simp [handle_result, should_notify, Bool.and_eq_true] at hnotif
            exact hnotif.1.1.1
        · refine Or.inl ?_
          simp [sweepStep, hnotif, h]
      · have hprev : (dictGet? acc.1 u).getD none = some true := by rw [h.2.1]; rfl
        have hnotif :
            (handle_result ((fetch u).getD false) ((dictGet? acc.1 u).getD none) token chat).2 = false := by
          simp [handle_result, should_notify, hprev]
        refine Or.inr ⟨?_, ?_, h.2.2⟩
        · simp [sweepStep, hnotif, h.1]
        · rw [show (sweepStep fetch token chat acc u).1 = dictInsert acc.1 u
            (some (handle_result ((fetch u).getD false) ((dictGet? acc.1 u).getD none) token chat).1) from rfl]
          simp [handle_result, dictGet_insert_self, h.2.2]
    · have hcount : (sweepStep fetch token chat acc w).2.count u = acc.2.count u := by
        by_cases hnotif :
          (handle_result ((fetch w).getD false) ((dictGet? acc.1 w).getD none) token chat).2 = true
        · simp [sweepStep, hnotif, List.count_append, List.count_singleton, huw]
        · simp [sweepStep, hnotif]
      have hget : dictGet? (sweepStep fetch token chat acc w).1 u = dictGet? acc.1 u := by
        rw [show (sweepStep fetch token chat acc w).1 = dictInsert acc.1 w
          (some (handle_result ((fetch w).getD false) ((dictGet? acc.1 w).getD none) token chat).1) from rfl]
        exact dictGet_insert_ne _ _ huw
      rcases h with h | h
      · exact Or.inl (by rw [hcount]; exact h)
      · exact Or.inr ⟨by rw [hcount]; exact h.1, by rw [hget]; exact h.2.1, h.2.2⟩

/-- C2: when the fetch of one URL in a multi-URL task raises (modelled as
`fetch u = none`), that URL's state is stored as absent (`some false`), no
notification fires for it, and every URL of the task — including all
subsequent ones — still gets checked and written in the same sweep. -/
theorem C2_fetch_error_fail_safe (fetch : String → Option Bool) (token chat : String)
    (task : WatchTask) (u : String) (hu : u ∈ task.urls) (herr : fetch u = none) :
    dictGet? (sweepTask fetch token chat task.states task.urls).1 u = some (some false) ∧
    u ∉ (sweepTask fetch token chat task.states task.urls).2 ∧
    (∀ v ∈ task.urls, ∃ b,
      dictGet? (sweepTask fetch token chat task.states task.urls).1 v = some (some b)) := by
  refine ⟨?_, ?_, ?_⟩
  · have := sweep_written fetch token chat task.urls (task.states, []) u (Or.inl hu)
    simpa [sweepTask, herr] using this
  · intro hmem
    rcases sweep_notified_present fetch token chat task.urls (task.states, []) u
      (by simpa [sweepTask] using hmem) with h | h
    · simp at h
    · rw [herr] at h
      simp at h
  · intro v hv
    exact ⟨(fetch v).getD false,
      sweep_written fetch token chat task.urls (task.states, []) v (Or.inl hv)⟩

theorem C2_fetch_error_fail_safe_witness :
    ("https://b.test" ∈ (mkWatchTask ["https://a.test", "https://b.test", "https://c.test"] 5).urls) ∧
    ((fun v => if v = "https://b.test" then none else some true) "https://b.test" = none) ∧
    (dictGet? (sweepTask (fun v => if v = "https://b.test" then none else some true) "t" "c"
        (mkWatchTask ["https://a.test", "https://b.test", "https://c.test"] 5).states
        (mkWatchTask ["https://a.test", "https://b.test", "https://c.test"] 5).urls).1
        "https://b.test" = some (some false) ∧
      "https://b.test" ∉ (sweepTask (fun v => if v = "https://b.test" then none else some true) "t" "c"
        (mkWatchTask ["https://a.test", "https://b.test", "https://c.test"] 5).states
        (mkWatchTask ["https://a.test", "https://b.test", "https://c.test"] 5).urls).2 ∧
      (∀ v ∈ (mkWatchTask ["https://a.test", "https://b.test", "https://c.test"] 5).urls, ∃ b,
        dictGet? (sweepTask (fun v => if v = "https://b.test" then none else some true) "t" "c"
          (mkWatchTask ["https://a.test", "https://b.test", "https://c.test"] 5).states
          (mkWatchTask ["https://a.test", "https://b.test", "https://c.test"] 5).urls).1 v =
          some (some b))) :=
  ⟨by decide, by decide,
    C2_fetch_error_fail_safe (fun v => if v = "https://b.test" then none else some true) "t" "c"
      (mkWatchTask ["https://a.test", "https://b.test", "https://c.test"] 5) "https://b.test"
      (by decide) (by decide)⟩

/-- C10: the states mapping of a freshly created task has exactly one entry
per distinct URL (no-duplicate keys whose membership coincides with the URL
list), and a single sweep over the task's URL list — duplicates included —
notifies any given URL at most once, because a later occurrence reads the
state the earlier occurrence just stored. -/
theorem C10_duplicate_url_single_notification (urls : List String)
    (fetch : String → Option Bool) (token chat : String) (u : String) :
    ((dictKeys (mkStates urls)).Nodup ∧ (∀ k, k ∈ dictKeys (mkStates urls) ↔ k ∈ urls)) ∧
    (sweepTask fetch token chat (mkStates urls) urls).2.count u ≤ 1 := by
  refine ⟨⟨mkStates_keys_nodup urls, fun k => mem_mkStates_keys urls k⟩, ?_⟩
  rcases sweep_count_invariant fetch token chat u urls (mkStates urls, []) (Or.inl rfl) with h | h
  · rw [sweepTask, h]
    exact Nat.zero_le 1
  · rw [sweepTask, h.1]

theorem watchScan_urls :
    ∀ (args : List String) (us : List String) (q : ℚ),
      (args.foldl watchScanStep (us, q)).1 = us ++ args.filter (fun a => is_url_token a) := by
  intro args
  induction args with
  | nil => intro us q; simp
  | cons a args ih =>
    intro us q
    rw [List.foldl_cons]
    by_cases ha : is_url_token a = true
    · rw [show watchScanStep (us, q) a = (us ++ [a], q) by simp [watchScanStep, ha]]
      simp [ih, ha]
    · have hstep : ∃ q', watchScanStep (us, q) a = (us, q') := by
        simp only [watchScanStep, ha]
        cases hp : pyFloat? a with
        | none => exact ⟨q, by simp⟩
        | some x =>
          by_cases hx : (1 : ℚ) ≤ x
          · exact ⟨x, by simp [hx]⟩
          · exact ⟨q, by simp [hx]⟩
      obtain ⟨q', hq'⟩ := hstep
      rw [hq']
      simp [ih, ha]

theorem watchScan_interval :
    ∀ (args : List String) (us : List String) (q : ℚ),
      (args.foldl watchScanStep (us, q)).2 =
        (((args.filter (fun a => !is_url_token a)).filterMap intervalTok?).getLast?).getD q := by
  intro args
  induction args with
  | nil => intro us q; simp
  | cons a args ih =>
    intro us q
    rw [List.foldl_cons]
    by_cases ha : is_url_token a = true
    · rw [show watchScanStep (us, q) a = (us ++ [a], q) by simp [watchScanStep, ha]]
      simp [ih, ha]
    · simp only [List.filter_cons, ha, Bool.not_false, if_true]
      cases hp : pyFloat? a with
      | none =>
        rw [show watchScanStep (us, q) a = (us, q) by simp [watchScanStep, ha, hp]]
        simp [ih, List.filterMap_cons, intervalTok?, hp]
      | some x =>
        by_cases hx : (1 : ℚ) ≤ x
        · rw [show watchScanStep (us, q) a = (us, x) by simp [watchScanStep, ha, hp, hx]]
          rw [ih]
          rw [show List.filterMap intervalTok? (a :: List.filter (fun a => !is_url_token a) args) =
            x :: List.filterMap intervalTok? (List.filter (fun a => !is_url_token a) args) by
              simp [List.filterMap_cons, intervalTok?, hp, hx]]
          cases hrest : List.filterMap intervalTok? (List.filter (fun a => !is_url_token a) args) with
          | nil => rfl
          | cons y ys =>
            rw [List.getLast?_cons_cons]
            have hsome : (y :: ys).getLast?.isSome := by simp [List.getLast?_isSome]
            obtain ⟨z, hz⟩ := Option.isSome_iff_exists.mp hsome
            rw [hz]
            rfl
        · rw [show watchScanStep (us, q) a = (us, q) by simp [watchScanStep, ha, hp, hx]]
          simp [ih, List.filterMap_cons, intervalTok?, hp, hx]

/-- C6: for a start-watch command (verb matched case-insensitively) with at
least one argument, the URL-scheme tokens are collected in order (duplicates
allowed), the last non-URL token parsing as a number ≥ 1 overrides the
default interval, other tokens are ignored, and an argument list without any
URL token — or a bare `watch` — yields an invalid intent and no task. -/
theorem C6_watch_command_parsing :
    (∀ (args : List String) (d : ℚ),
      (interpret_watch args d).1 = args.filter (fun a => is_url_token a)) ∧
    (∀ (args : List String) (d : ℚ),
      (interpret_watch args d).2 =
        (((args.filter (fun a => !is_url_token a)).filterMap intervalTok?).getLast?).getD d) ∧
    (∀ (text : String) (d : ℚ),
      (parse_command text).2.filter (fun a => is_url_token a) = [] →
        watch_intent text d = none) ∧
    watch_intent "watch https://a.test https://b.test 10" 5 =
      some (["https://a.test", "https://b.test"], 10) ∧
    watch_intent "/WATCH https://a.test" 5 = some (["https://a.test"], 5) ∧
    watch_intent "watch" 5 = none := by
  refine ⟨?_, ?_, ?_, ?_, ?_, ?_⟩
  · intro args d
    simpa [interpret_watch] using watchScan_urls args [] d
  · intro args d
    simpa [interpret_watch] using watchScan_interval args [] d
  · intro text d h
    unfold watch_intent
    by_cases hverb :
        (((parse_command text).1 = "/watch" ∨ (parse_command text).1 = "watch") ∧
          1 ≤ (parse_command text).2.length)
    · have hurls : (interpret_watch (parse_command text).2 d).1 = [] := by
        rw [show (interpret_watch (parse_command text).2 d).1 =
          (parse_command text).2.filter (fun a => is_url_token a) from by
            simpa [interpret_watch] using watchScan_urls (parse_command text).2 [] d]
        exact h
      simp [hverb, hurls]
    · simp [hverb]
  · norm_num +decide [watch_intent, parse_command, pySplitStr, pySplit, pySplitGo, pySpace,
      strLower, lowerChar, interpret_watch, watchScanStep, is_url_token, listStarts, pyFloat?,
      takeDigits, digitVal, digitsVal]
  · decide
  · decide

theorem C6_watch_command_parsing_witness :
    (interpret_watch ["https://a.test", "x", "3", "https://b.test", "2"] 5).1 =
      ["https://a.test", "x", "3", "https://b.test", "2"].filter (fun a => is_url_token a) ∧
    (interpret_watch ["https://a.test", "x", "3", "https://b.test", "2"] 5).2 =
      ((["https://a.test", "x", "3", "https://b.test", "2"].filter
        (fun a => !is_url_token a)).filterMap intervalTok?).getLast?.getD 5 ∧
    watch_intent "watch" 5 = none :=
  ⟨C6_watch_command_parsing.1 ["https://a.test", "x", "3", "https://b.test", "2"] 5,
   C6_watch_command_parsing.2.1 ["https://a.test", "x", "3", "https://b.test", "2"] 5,
   C6_watch_command_parsing.2.2.2.2.2⟩

/-- C8 counterexample: with no flag and no environment variable, the
resolved bot credential is the token constant embedded in the source — it is
non-empty, so bot mode starts up without error; the claim that there is no
hard-coded fallback secret and that a missing credential is a fatal
configuration error is false of this code. -/
theorem C8_cex_hardcoded_fallback :
    resolve_token none none ≠ "" ∧
    bot_token_check (resolve_token none none) = Except.ok () := by
  exact ⟨by decide, rfl⟩

/-- C8 amended: the credential resolves from the `--tg-token` flag, else the
environment variable, else a hard-coded fallback token embedded in the
source; startup fails with the diagnostic exactly when the resolved
credential is the empty string (which never happens unless the flag or the
environment variable is explicitly set empty). -/
theorem C8_amended_token_resolution :
    (∀ t, (∃ e, bot_token_check t = Except.error e) ↔ t = "") ∧
    resolve_token none none = "1687980280:AAH9vN-yD619thih9y7MthpB0YLOGs9HMq8" ∧
    resolve_token none none ≠ "" ∧
    (∀ flag env, resolve_token (some flag) env = flag) ∧
    (∀ env, resolve_token none (some env) = env) := by
  refine ⟨?_, rfl, by decide, fun flag env => rfl, fun env => rfl⟩
  intro t
  constructor
  · rintro ⟨e, he⟩
    by_cases ht : t = ""
    · exact ht
    · simp [bot_token_check, ht] at he
  · intro ht
    subst ht
    exact ⟨"Telegram token is required in bot mode (use --tg-token or TELEGRAM_BOT_TOKEN)", rfl⟩

theorem C8_amended_token_resolution_witness :
    (∃ e, bot_token_check "" = Except.error e) ∧
    resolve_token none none = "1687980280:AAH9vN-yD619thih9y7MthpB0YLOGs9HMq8" :=
  ⟨(C8_amended_token_resolution.1 "").mpr rfl, C8_amended_token_resolution.2.1⟩

/-- C9 counterexample: a server-declared ISO-8859-1 with a successful
content detection (windows-1256) decodes with UTF-8, not with the detected
encoding — the code skips detection when an encoding is declared, even a
known-bad one, refuting the claimed chain. -/
theorem C9_cex_declared_iso_skips_detection :
    resolve_encoding (some "ISO-8859-1") (some "windows-1256") = "utf-8" ∧
    resolve_encoding_spec (some "ISO-8859-1") (some "windows-1256") = "windows-1256" ∧
    resolve_encoding (some "ISO-8859-1") (some "windows-1256") ≠
      resolve_encoding_spec (some "ISO-8859-1") (some "windows-1256") := by
  exact ⟨by decide, by decide, by decide⟩

/-- C9 amended: the declared encoding is used when non-empty and not
ISO-8859-1; content detection is consulted only when the declared encoding
is absent/empty, and its result is used when non-empty and not ISO-8859-1;
in every other case — a declared ISO-8859-1 (detection skipped), a detected
ISO-8859-1, or no usable encoding at all — UTF-8 is used. -/
theorem C9_amended_encoding_chain (declared apparent : Option String) :
    (pyTruthy declared = true → strLower (declared.getD "") ≠ "iso-8859-1" →
      resolve_encoding declared apparent = declared.getD "") ∧
    (pyTruthy declared = false → pyTruthy apparent = true →
      strLower (apparent.getD "") ≠ "iso-8859-1" →
      resolve_encoding declared apparent = apparent.getD "") ∧
    (pyTruthy declared = false → pyTruthy apparent = false →
      resolve_encoding declared apparent = "utf-8") ∧
    (pyTruthy declared = true → strLower (declared.getD "") = "iso-8859-1" →
      resolve_encoding declared apparent = "utf-8") := by
  refine ⟨?_, ?_, ?_, ?_⟩
  · intro h1 h2
    simp [resolve_encoding, h1, h2]
  · intro h1 h2 h3
    simp [resolve_encoding, h1, h2, h3]
  · intro h1 h2
    simp [resolve_encoding, h1, h2]
  · intro h1 h2
    simp [resolve_encoding, h1, h2]

theorem C9_amended_encoding_chain_witness :
    pyTruthy (some "ISO-8859-1") = true ∧
    strLower ((some "ISO-8859-1").getD "") = "iso-8859-1" ∧
    resolve_encoding (some "ISO-8859-1") (some "windows-1256") = "utf-8" ∧
    pyTruthy (none : Option String) = false ∧
    pyTruthy (some "windows-1256") = true ∧
    strLower ((some "windows-1256").getD "") ≠ "iso-8859-1" ∧
    resolve_encoding none (some "windows-1256") = "windows-1256" :=
  ⟨by decide, by decide,
   (C9_amended_encoding_chain (some "ISO-8859-1") (some "windows-1256")).2.2.2
     (by decide) (by decide),
   by decide, by decide, by decide,
   (C9_amended_encoding_chain none (some "windows-1256")).2.1
     (by decide) (by decide) (by decide)⟩

theorem listStarts_iff : ∀ (a b : List Char), listStarts a b = true ↔ ∃ t, b = a ++ t := by
  intro a
  induction a with
  | nil =>
    intro b
    simp [listStarts]
  | cons x xs ih =>
    intro b
    cases b with
    | nil =>
      simp [listStarts]
    | cons y ys =>
      rw [listStarts]
      simp only [Bool.and_eq_true, beq_iff_eq, ih ys]
      constructor
      · rintro ⟨hxy, t, ht⟩
        exact ⟨t, by simp [hxy, ht]⟩
      · rintro ⟨t, ht⟩
        have h1 : y = x ∧ ys = xs ++ t := by simpa using ht
        exact ⟨h1.1.symm, t, h1.2⟩

theorem occursIn_iff : ∀ (l sub : List Char), occursIn sub l = true ↔ ∃ s t, l = s ++ sub ++ t := by
  intro l
  induction l with
  | nil =>
    intro sub
    rw [occursIn]
    constructor
    · intro h
      have : sub = [] := by simpa using h
      exact ⟨[], [], by simp [this]⟩
    · rintro ⟨s, t, h⟩
      have h' : s ++ (sub ++ t) = [] := by simpa using h.symm
      have hsub := List.append_eq_nil.mp (List.append_eq_nil.mp h').2
      simp [hsub.1]
    | cons c rest ih =>
      intro sub
      rw [occursIn]
      simp only [Bool.or_eq_true, listStarts_iff, ih]
      constructor
      · rintro (⟨t, ht⟩ | ⟨s, t, h⟩)
        · exact ⟨[], t, by simp [ht]⟩
        · exact ⟨c :: s, t, by simp [h]⟩
      · rintro ⟨s, t, h⟩
        cases s with
        | nil =>
          exact Or.inl ⟨t, by simpa using h⟩
        | cons a s' =>
          have h1 : c = a ∧ rest = s' ++ sub ++ t := by simpa using h
          exact Or.inr ⟨s', t, h1.2⟩

/-- C4 counterexample: the spec's example fails on the code — for page text
"Hello  Wörld" and needle "world" the containment check returns false, not
true: NFKC yields the precomposed ö, which `unicodedata.combining` reports
as 0, so the diacritic is never stripped and "world" does not occur in
"hello wörld". -/
theorem C4_cex_diacritic_example :
    page_contains_text "Hello  Wörld" "world" = false := by decide

/-- C4 amended: the containment check returns true iff the normalized needle
occurs contiguously inside the normalized page text, and matching is case-
and whitespace-insensitive ("Hello  World"/"world" → true); it is however
not diacritic-insensitive for precomposed Latin letters, so the spec's
"Hello  Wörld"/"world" example is false. -/
theorem C4_containment_iff (page needle : String) :
    (page_contains_text page needle = true ↔
      ∃ s t, (normalize_arabic page).data = s ++ (normalize_arabic needle).data ++ t) ∧
    page_contains_text "Hello  World" "world" = true := by
  constructor
  · exact occursIn_iff (normalize_arabic page).data (normalize_arabic needle).data
  · decide

theorem combining_eq_false_iff (c : Char) : combining c = false ↔ ccc c = 0 := by
  simp [combining]

theorem endChar_props (e : Char) (h : endChar e = true) :
    decompChar e = [e] ∧ combining e = false ∧ replChar e = some e ∧
    lowerChar e = [e] ∧ pySpace e = false := by
  simp only [endChar, Bool.and_eq_true, beq_iff_eq, Bool.not_eq_true'] at h
  exact ⟨h.1.1.1.1, h.1.1.1.2, h.1.1.2, h.1.2, h.2⟩

theorem okChar_decomp (c : Char) (h : okChar c = true) : decompChar c = [c] := by
  unfold okChar at h
  by_cases hc : combining c = true
  · rw [if_pos hc] at h
    simp only [Bool.and_eq_true, beq_iff_eq] at h
    exact h.1.1
  · rw [if_neg hc] at h
    simp only [Bool.and_eq_true, beq_iff_eq] at h
    exact h.1

theorem comb_of_toNat_307 (c : Char) (h : c.toNat = 0x307) : combining c = true := by
  simp [combining, ccc, h]

theorem comb_of_toNat_308 (c : Char) (h : c.toNat = 0x308) : combining c = true := by
  simp [combining, ccc, h]

theorem okChar_not_composable (c : Char) (h : okChar c = true) :
    c.toNat ≠ 0x307 ∧ c.toNat ≠ 0x308 := by
  unfold okChar at h
  by_cases hc : combining c = true
  · rw [if_pos hc] at h
    simp only [Bool.and_eq_true, bne_iff_ne, ne_eq] at h
    exact ⟨h.1.2, h.2⟩
  · constructor
    · intro h307
      exact hc (comb_of_toNat_307 c h307)
    · intro h308
      exact hc (comb_of_toNat_308 c h308)

theorem okChar_replOk (c : Char) (h : okChar c = true) (hnc : combining c = false) :
    replOk c = true := by
  unfold okChar at h
  rw [if_neg (by simp [hnc])] at h
  simp only [Bool.and_eq_true] at h
  exact h.2

theorem flatMap_decomp_id (l : List Char) (h : ∀ c ∈ l, decompChar c = [c]) :
    l.flatMap decompChar = l := by
  induction l with
  | nil => simp
  | cons c rest ih =>
    rw [List.flatMap_cons, h c (by simp), ih (fun d hd => h d (by simp [hd]))]
    rfl

theorem composePair_eq_none (a b : Char) (h7 : b.toNat ≠ 0x307) (h8 : b.toNat ≠ 0x308) :
    composePair a b = none := by
  simp [composePair, h7, h8]

theorem composeAux_id (a : Char) (l : List Char)
    (h : ∀ c ∈ l, c.toNat ≠ 0x307 ∧ c.toNat ≠ 0x308) :
    composeAux a l = a :: l := by
  induction l generalizing a with
  | nil => rfl
  | cons b rest ih =>
    rw [composeAux, composePair_eq_none a b (h b (by simp)).1 (h b (by simp)).2]
    rw [ih b (fun c hc => h c (by simp [hc]))]

theorem compose_id (l : List Char)
    (h : ∀ c ∈ l, c.toNat ≠ 0x307 ∧ c.toNat ≠ 0x308) :
    compose l = l := by
  cases l with
  | nil => rfl
  | cons a rest =>
    rw [compose, composeAux_id a rest (fun c hc => h c (by simp [hc]))]

theorem mem_insertMark (x c : Char) (m : List Char) :
    x ∈ insertMark c m ↔ x = c ∨ x ∈ m := by
  induction m with
  | nil => simp [insertMark]
  | cons d ds ih =>
    rw [insertMark]
    by_cases h : ccc d ≤ ccc c
    · rw [if_pos h, List.mem_cons, ih, List.mem_cons]
      tauto
    · rw [if_neg h, List.mem_cons, List.mem_cons]

theorem mem_sortMarks_fold (x : Char) :
    ∀ (m acc : List Char),
      x ∈ m.foldl (fun acc c => insertMark c acc) acc ↔ x ∈ acc ∨ x ∈ m := by
  intro m
  induction m with
  | nil => simp
  | cons c cs ih =>
    intro acc
    rw [List.foldl_cons, ih, mem_insertMark]
    simp only [List.mem_cons]
    tauto

theorem mem_sortMarks (x : Char) (m : List Char) : x ∈ sortMarks m ↔ x ∈ m := by
  rw [sortMarks, mem_sortMarks_fold]
  simp

theorem mem_canonicalOrderGo (x : Char) :
    ∀ (l marks : List Char),
      x ∈ canonicalOrderGo marks l ↔ x ∈ marks ∨ x ∈ l := by
  intro l
  induction l with
  | nil => intro marks; rw [canonicalOrderGo, mem_sortMarks]; simp
  | cons c rest ih =>
    intro marks
    rw [canonicalOrderGo]
    by_cases h : ccc c = 0
    · rw [if_pos h]
      simp only [List.mem_append, mem_sortMarks, List.mem_cons, ih]
      tauto
    · rw [if_neg h, ih]
      simp only [List.mem_append, List.mem_cons, List.mem_singleton]
      tauto

theorem mem_canonicalOrder (x : Char) (l : List Char) :
    x ∈ canonicalOrder l ↔ x ∈ l := by
  rw [canonicalOrder, mem_canonicalOrderGo]
  simp

theorem strip_sortMarks (m : List Char) (h : ∀ c ∈ m, combining c = true) :
    stripCombining (sortMarks m) = [] := by
  rw [stripCombining, List.filter_eq_nil]
  intro c hc
  rw [(mem_sortMarks c m).mp hc |> h c]
  simp

theorem strip_canonicalOrderGo :
    ∀ (l marks : List Char), (∀ c ∈ marks, combining c = true) →
      stripCombining (canonicalOrderGo marks l) = stripCombining l := by
  intro l
  induction l with
  | nil =>
    intro marks hm
    rw [canonicalOrderGo, strip_sortMarks marks hm]
    rfl
  | cons c rest ih =>
    intro marks hm
    rw [canonicalOrderGo]
    by_cases h : ccc c = 0
    · rw [if_pos h]
      have hc : combining c = false := (combining_eq_false_iff c).mpr h
      rw [stripCombining, List.filter_append]
      rw [show List.filter (fun c => !combining c) (sortMarks marks) = [] from
        strip_sortMarks marks hm]
      rw [List.filter_cons, hc]
      simp only [Bool.not_false, if_true, List.nil_append]
      rw [show List.filter (fun c => !combining c) (canonicalOrderGo [] rest) =
        stripCombining rest from ih [] (by simp)]
      simp [stripCombining, List.filter_cons, hc]
    · rw [if_neg h]
      have hc : combining c = true := by
        simp [combining, h]
      rw [ih (marks ++ [c]) ?_]
      · simp [stripCombining, List.filter_cons, hc]
      · intro d hd
        rcases List.mem_append.mp hd with h1 | h1
        · exact hm d h1
        · rw [List.mem_singleton.mp h1]
          exact hc

theorem canonicalOrder_id (l : List Char) (h : ∀ c ∈ l, combining c = false) :
    canonicalOrder l = l := by
  rw [canonicalOrder]
  induction l with
  | nil => rfl
  | cons c rest ih =>
    rw [canonicalOrderGo, if_pos ((combining_eq_false_iff c).mp (h c (by simp)))]
    rw [ih (fun d hd => h d (by simp [hd]))]
    rfl

theorem stripCombining_id (l : List Char) (h : ∀ c ∈ l, combining c = false) :
    stripCombining l = l := by
  rw [stripCombining, List.filter_eq_self]
  intro c hc
  simp [h c hc]

theorem applyRepl_id (l : List Char) (h : ∀ c ∈ l, replChar c = some c) :
    applyRepl l = l := by
  induction l with
  | nil => rfl
  | cons c rest ih =>
    rw [applyRepl, List.filterMap_cons, h c (by simp)]
    rw [show List.filterMap replChar rest = rest from ih (fun d hd => h d (by simp [hd]))]

theorem flatMap_lower_id (l : List Char) (h : ∀ c ∈ l, lowerChar c = [c]) :
    l.flatMap lowerChar = l := by
  induction l with
  | nil => rfl
  | cons c rest ih =>
    rw [List.flatMap_cons, h c (by simp), ih (fun d hd => h d (by simp [hd]))]
    rfl

theorem lowerChar_ne_nil (c : Char) : lowerChar c ≠ [] := by
  unfold lowerChar
  split
  · simp
  · split
    · simp
    · split
      · simp
      · simp

theorem pySplitGo_sound :
    ∀ (l acc : List Char), (∀ c ∈ acc, pySpace c = false) →
      ∀ w ∈ pySplitGo acc l, w ≠ [] ∧ ∀ c ∈ w, (c ∈ acc ∨ c ∈ l) ∧ pySpace c = false := by
  intro l
  induction l with
  | nil =>
    intro acc hacc w hw
    rw [pySplitGo] at hw
    by_cases he : acc.isEmpty
    · rw [if_pos he] at hw
      simp at hw
    · rw [if_neg he] at hw
      have hw' : w = acc.reverse := by simpa using hw
      subst hw'
      refine ⟨by simpa [List.isEmpty_iff, List.reverse_eq_nil_iff] using he, ?_⟩
      intro c hc
      have hc' : c ∈ acc := by simpa using hc
      exact ⟨Or.inl hc', hacc c hc'⟩
  | cons d rest ih =>
    intro acc hacc w hw
    rw [pySplitGo] at hw
    by_cases hd : pySpace d = true
    · rw [if_pos hd] at hw
      by_cases he : acc.isEmpty
      · rw [if_pos he] at hw
        obtain ⟨hne, hall⟩ := ih [] (by simp) w hw
        refine ⟨hne, fun c hc => ⟨?_, (hall c hc).2⟩⟩
        rcases (hall c hc).1 with h | h
        · simp at h
        · exact Or.inr (List.mem_cons_of_mem _ h)
      · rw [if_neg he] at hw
        rcases List.mem_cons.mp hw with hw1 | hw1
        · subst hw1
          refine ⟨by simpa [List.isEmpty_iff, List.reverse_eq_nil_iff] using he, ?_⟩
          intro c hc
          have hc' : c ∈ acc := by simpa using hc
          exact ⟨Or.inl hc', hacc c hc'⟩
        · obtain ⟨hne, hall⟩ := ih [] (by simp) w hw1
          refine ⟨hne, fun c hc => ⟨?_, (hall c hc).2⟩⟩
          rcases (hall c hc).1 with h | h
          · simp at h
          · exact Or.inr (List.mem_cons_of_mem _ h)
    · rw [if_neg hd] at hw
      have hd' : pySpace d = false := by simpa using hd
      have hacc' : ∀ c ∈ d :: acc, pySpace c = false := by
        intro c hc
        rcases List.mem_cons.mp hc with h | h
        · subst h
          exact hd'
        · exact hacc c h
      obtain ⟨hne, hall⟩ := ih (d :: acc) hacc' w hw
      refine ⟨hne, ?_⟩
      intro c hc
      obtain ⟨hmem, hsp⟩ := hall c hc
      refine ⟨?_, hsp⟩
      rcases hmem with h | h
      · rcases List.mem_cons.mp h with h1 | h1
        · subst h1
          exact Or.inr (by simp)
        · exact Or.inl h1
      · exact Or.inr (List.mem_cons_of_mem _ h)

theorem pySplit_sound (l : List Char) :
    ∀ w ∈ pySplit l, w ≠ [] ∧ ∀ c ∈ w, c ∈ l ∧ pySpace c = false := by
  intro w hw
  obtain ⟨hne, hall⟩ := pySplitGo_sound l [] (by simp) w hw
  refine ⟨hne, fun c hc => ⟨?_, (hall c hc).2⟩⟩
  rcases (hall c hc).1 with h | h
  · simp at h
  · exact h

theorem pySplitGo_word :
    ∀ (w l acc : List Char), (∀ c ∈ w, pySpace c = false) →
      pySplitGo acc (w ++ l) = pySplitGo (w.reverse ++ acc) l := by
  intro w
  induction w with
  | nil =>
    intro l acc h
    simp
  | cons c w' ih =>
    intro l acc h
    rw [List.cons_append, pySplitGo, if_neg (by simp [h c (by simp)])]
    rw [ih l (c :: acc) (fun d hd => h d (by simp [hd]))]
    simp [List.reverse_cons, List.append_assoc]

theorem pySplit_joinSpace :
    ∀ ws : List (List Char), (∀ w ∈ ws, w ≠ [] ∧ ∀ c ∈ w, pySpace c = false) →
      pySplit (joinSpace ws) = ws := by
  intro ws
  induction ws with
  | nil => intro h; rfl
  | cons w ws ih =>
    intro h
    cases ws with
    | nil =>
      have hw := h w (by simp)
      show pySplit w = [w]
      have h3 := pySplitGo_word w [] [] hw.2
      rw [List.append_nil, List.append_nil] at h3
      rw [pySplit, h3, pySplitGo, if_neg ?_]
      · simp
      · simpa [List.isEmpty_iff, List.reverse_eq_nil_iff] using hw.1
    | cons w2 ws2 =>
      have hw := h w (by simp)
      show pySplit (w ++ Char.ofNat 0x20 :: joinSpace (w2 :: ws2)) = w :: w2 :: ws2
      rw [pySplit, pySplitGo_word w _ [] hw.2, List.append_nil]
      rw [pySplitGo, if_pos (by decide), if_neg ?_]
      · rw [List.reverse_reverse]
        rw [show pySplitGo ([] : List Char) (joinSpace (w2 :: ws2)) =
          pySplit (joinSpace (w2 :: ws2)) from rfl]
        rw [ih (fun w' hw' => h w' (by simp [hw']))]
      · simpa [List.isEmpty_iff, List.reverse_eq_nil_iff] using hw.1

theorem mem_joinSpace (c : Char) :
    ∀ ws : List (List Char), c ∈ joinSpace ws → c = Char.ofNat 0x20 ∨ ∃ w ∈ ws, c ∈ w := by
  intro ws
  induction ws with
  | nil =>
    intro h
    simp [joinSpace] at h
  | cons w ws ih =>
    cases ws with
    | nil =>
      intro h
      exact Or.inr ⟨w, by simp, by simpa [joinSpace] using h⟩
    | cons w2 ws2 =>
      intro h
      rw [show joinSpace (w :: w2 :: ws2) =
        w ++ Char.ofNat 0x20 :: joinSpace (w2 :: ws2) from rfl] at h
      rcases List.mem_append.mp h with h1 | h1
      · exact Or.inr ⟨w, by simp, h1⟩
      · rcases List.mem_cons.mp h1 with h2 | h2
        · exact Or.inl h2
        · rcases ih h2 with h3 | ⟨w', hw', hc⟩
          · exact Or.inl h3
          · exact Or.inr ⟨w', by simp [hw'], hc⟩

theorem flatMap_joinSpace :
    ∀ ws : List (List Char),
      (joinSpace ws).flatMap lowerChar =
        joinSpace (ws.map (fun w => w.flatMap lowerChar)) := by
  intro ws
  induction ws with
  | nil => rfl
  | cons w ws ih =>
    cases ws with
    | nil => rfl
    | cons w2 ws2 =>
      rw [show joinSpace (w :: w2 :: ws2) =
        w ++ Char.ofNat 0x20 :: joinSpace (w2 :: ws2) from rfl]
      rw [List.flatMap_append, List.flatMap_cons]
      rw [show lowerChar (Char.ofNat 0x20) = [Char.ofNat 0x20] from by decide]
      rw [ih]
      rfl

theorem nfkc_strip_eq (l : List Char) (h : ∀ c ∈ l, okChar c = true) :
    stripCombining (nfkc l) = stripCombining l := by
  have hdecomp : l.flatMap decompChar = l :=
    flatMap_decomp_id l (fun c hc => okChar_decomp c (h c hc))
  rw [nfkc, hdecomp]
  have hcomp : compose (canonicalOrder l) = canonicalOrder l := by
    apply compose_id
    intro c hc
    exact okChar_not_composable c (h c ((mem_canonicalOrder c l).mp hc))
  rw [hcomp]
  exact strip_canonicalOrderGo l [] (by simp)

theorem normalize_chars_idem (l : List Char) (h : ∀ c ∈ l, okChar c = true) :
    normalize_arabic_chars (normalize_arabic_chars l) = normalize_arabic_chars l := by
  have hstrip : stripCombining (nfkc l) = stripCombining l := nfkc_strip_eq l h
  have hl2chars : ∀ d ∈ applyRepl (stripCombining l), lowGood d = true := by
    intro d hd
    rw [applyRepl] at hd
    obtain ⟨c, hc, hrepl⟩ := List.mem_filterMap.mp hd
    have hcl : c ∈ l ∧ combining c = false := by
      rw [stripCombining] at hc
      have hf := List.mem_filter.mp hc
      exact ⟨hf.1, by simpa using hf.2⟩
    have hro := okChar_replOk c (h c hcl.1) hcl.2
    simp only [replOk, hrepl] at hro
    exact hro
  have hwords : ∀ w ∈ pySplit (applyRepl (stripCombining l)),
      w ≠ [] ∧ ∀ c ∈ w, c ∈ applyRepl (stripCombining l) ∧ pySpace c = false :=
    fun w hw => pySplit_sound _ w hw
  have hy : normalize_arabic_chars l =
      joinSpace ((pySplit (applyRepl (stripCombining l))).map
        (fun w => w.flatMap lowerChar)) := by
    rw [normalize_arabic_chars, hstrip, collapseWs, flatMap_joinSpace]
  have hws'props : ∀ w' ∈ (pySplit (applyRepl (stripCombining l))).map
      (fun w => w.flatMap lowerChar), w' ≠ [] ∧ ∀ c ∈ w', endChar c = true := by
    intro w' hw'
    rw [List.mem_map] at hw'
    obtain ⟨w, hw, rfl⟩ := hw'
    obtain ⟨hne, hchars⟩ := hwords w hw
    constructor
    · cases w with
      | nil => exact absurd rfl hne
      | cons c cs =>
        rw [List.flatMap_cons]
        intro hcontra
        exact lowerChar_ne_nil c (List.append_eq_nil.mp hcontra).1
    · intro e he
      rw [List.mem_flatMap] at he
      obtain ⟨c, hc, hec⟩ := he
      have hcp := hchars c hc
      have hlg := hl2chars c hcp.1
      rw [lowGood, hcp.2] at hlg
      simp only [Bool.false_or, List.all_eq_true] at hlg
      exact hlg e hec
  have hychar : ∀ c ∈ normalize_arabic_chars l,
      endChar c = true ∨ c = Char.ofNat 0x20 := by
    intro c hc
    rw [hy] at hc
    rcases mem_joinSpace c _ hc with h1 | ⟨w', hw', hcw⟩
    · exact Or.inr h1
    · exact Or.inl ((hws'props w' hw').2 c hcw)
  have hdecompy : ∀ c ∈ normalize_arabic_chars l, decompChar c = [c] := by
    intro c hc
    rcases hychar c hc with h1 | h1
    · exact (endChar_props c h1).1
    · rw [h1]
      decide
  have hcomby : ∀ c ∈ normalize_arabic_chars l, combining c = false := by
    intro c hc
    rcases hychar c hc with h1 | h1
    · exact (endChar_props c h1).2.1
    · rw [h1]
      decide
  have hreply : ∀ c ∈ normalize_arabic_chars l, replChar c = some c := by
    intro c hc
    rcases hychar c hc with h1 | h1
    · exact (endChar_props c h1).2.2.1
    · rw [h1]
      decide
  have hlowy : ∀ c ∈ normalize_arabic_chars l, lowerChar c = [c] := by
    intro c hc
    rcases hychar c hc with h1 | h1
    · exact (endChar_props c h1).2.2.2.1
    · rw [h1]
      decide
  have hnfkcy : nfkc (normalize_arabic_chars l) = normalize_arabic_chars l := by
    rw [nfkc, flatMap_decomp_id _ hdecompy, canonicalOrder_id _ hcomby]
    apply compose_id
    intro c hc
    constructor
    · intro h307
      have := comb_of_toNat_307 c h307
      rw [hcomby c hc] at this
      exact Bool.false_ne_true this
    · intro h308
      have := comb_of_toNat_308 c h308
      rw [hcomby c hc] at this
      exact Bool.false_ne_true this
  have hstripy : stripCombining (normalize_arabic_chars l) = normalize_arabic_chars l :=
    stripCombining_id _ hcomby
  have hreplAy : applyRepl (normalize_arabic_chars l) = normalize_arabic_chars l :=
    applyRepl_id _ hreply
  have hsplity : pySplit (normalize_arabic_chars l) =
      (pySplit (applyRepl (stripCombining l))).map (fun w => w.flatMap lowerChar) := by
    rw [hy]
    apply pySplit_joinSpace
    intro w' hw'
    refine ⟨(hws'props w' hw').1, ?_⟩
    intro c hc
    exact (endChar_props c ((hws'props w' hw').2 c hc)).2.2.2.2
  have hcolly : collapseWs (normalize_arabic_chars l) = normalize_arabic_chars l := by
    rw [collapseWs, hsplity, ← hy]
  have hflaty : (normalize_arabic_chars l).flatMap lowerChar = normalize_arabic_chars l :=
    flatMap_lower_id _ hlowy
  calc normalize_arabic_chars (normalize_arabic_chars l)
      = (collapseWs (applyRepl (stripCombining
          (nfkc (normalize_arabic_chars l))))).flatMap lowerChar := rfl
    _ = normalize_arabic_chars l := by
        rw [hnfkcy, hstripy, hreplAy, hcolly, hflaty]

/-- C5 counterexample: the normalizer is not idempotent — for x = "İ"
(U+0130), `str.lower` produces i plus a combining dot above, which the first
pass keeps (it is produced after the combining-strip stage) and the second
pass strips: normalize("İ") = "i̇" but normalize(normalize("İ")) = "i". -/
theorem C5_cex_not_idempotent :
    normalize_arabic (normalize_arabic "İ") ≠ normalize_arabic "İ" := by decide

/-- C5 amended: the normalizer is idempotent on every string of characters
that are inert under the pipeline's stages — inert combining marks (not
U+0307/U+0308), and non-combining NFKC-inert characters whose replacement
image lowercases to stable final characters or whitespace.  This covers all
ASCII and the whole Arabic repertoire the program targets, harakat included;
İ, whose lowercasing introduces a combining mark, is the exception the
counterexample exhibits. -/
theorem C5_amended_idempotent_on_stable (s : String)
    (h : ∀ c ∈ s.data, okChar c = true) :
    normalize_arabic (normalize_arabic s) = normalize_arabic s := by
  show String.mk (normalize_arabic_chars (normalize_arabic_chars s.data)) =
    String.mk (normalize_arabic_chars s.data)
  rw [normalize_chars_idem s.data h]

theorem C5_amended_idempotent_on_stable_witness :
    (∀ c ∈ ("سَجل الان 123 ABC" : String).data,
      okChar c = true) ∧
    normalize_arabic (normalize_arabic "سَجل الان 123 ABC") =
      normalize_arabic "سَجل الان 123 ABC" :=
  ⟨by decide, C5_amended_idempotent_on_stable _ (by decide)⟩

end Aissam
